import Mathlib

/-!
Verification development for the Notion auto-tagging pipeline
(`src/tagger.py`, `src/utils.py`, `src/notion_service.py`, `src/main.py`).

Strings are modelled as lists of characters (`StrL`).  Python library
functions that the code calls (ASCII upper/lower casing, `str.strip`,
`str.split`, `re.split`, `str.capitalize`, `json.loads`,
`datetime.fromisoformat`) are embedded for the ASCII fragment the
pipeline exercises; timestamp parsing and JSON parsing are kept as
function parameters (they are external library calls), instantiated with
concrete functions in witnesses.
-/

/-- Strings as lists of characters. -/
abbrev StrL := List Char

/-- Characters of a Lean string literal. -/
def strL (s : String) : StrL := s.data

/-- ASCII uppercase-letter test, the regex class `[A-Z]`. -/
def isUpperB (c : Char) : Bool := 65 ≤ c.toNat && c.toNat ≤ 90

/-- ASCII lowercase-letter test, the regex class `[a-z]`. -/
def isLowerB (c : Char) : Bool := 97 ≤ c.toNat && c.toNat ≤ 122

/-- ASCII digit test, the regex class `[0-9]`. -/
def isDigitB (c : Char) : Bool := 48 ≤ c.toNat && c.toNat ≤ 57

/-- ASCII alphanumeric test, the regex class `[A-Za-z0-9]`. -/
def isAlnumB (c : Char) : Bool := isUpperB c || isLowerB c || isDigitB c

/-- ASCII letter test, the regex class `[A-Za-z]`. -/
def isAlphaB (c : Char) : Bool := isUpperB c || isLowerB c

/-- ASCII upcasing of one character: what Python `str.capitalize` does to
the first character of an ASCII word (non-letters are unchanged). -/
def asciiUpperChar (c : Char) : Char :=
  if h : 97 ≤ c.toNat ∧ c.toNat ≤ 122 then
    Char.ofNatAux (c.toNat - 32) (Or.inl (by omega))
  else c

/-- ASCII downcasing of one character: Python `str.lower` on ASCII. -/
def asciiLowerChar (c : Char) : Char :=
  if h : 65 ≤ c.toNat ∧ c.toNat ≤ 90 then
    Char.ofNatAux (c.toNat + 32) (Or.inl (by omega))
  else c

/-- Python `str.lower` (ASCII fragment). -/
def pyLower (l : StrL) : StrL := l.map asciiLowerChar

/-- Python whitespace characters, the `\s` class of `re` for ASCII and the
set stripped by `str.strip()`. -/
def isPySpace (c : Char) : Bool :=
  c = ' ' || c = '\t' || c = '\n' || c = '\r' || c = '\x0b' || c = '\x0c'

/-- The separator class `[\s\-_\.]` of `_to_pascal_case` in `src/tagger.py`. -/
def isSepChar (c : Char) : Bool :=
  isPySpace c || c = '-' || c = '_' || c = '.'

/-- Python `str.strip()`: drop leading and trailing whitespace. -/
def pyStrip (l : StrL) : StrL :=
  ((l.dropWhile isPySpace).reverse.dropWhile isPySpace).reverse

/-- The anchored regex `^[A-Z][a-zA-Z0-9]*$` used by `_to_pascal_case`
(and, with the same character classes, the spec regex `^[A-Z][A-Za-z0-9]*$`). -/
def pascalRegexB (l : StrL) : Bool :=
  match l with
  | [] => false
  | c :: cs => isUpperB c && cs.all isAlnumB

/-- Maximal runs of non-separator characters, accumulator form.  Equals
Python `re.split(r"[\s\-_\.]+", text)` with empty chunks discarded, which
is how `_to_pascal_case` consumes the split (`for word in words if word`). -/
def wordsAux : StrL → StrL → List StrL
  | [], cur => if cur = [] then [] else [cur.reverse]
  | c :: rest, cur =>
      if isSepChar c then
        if cur = [] then wordsAux rest [] else cur.reverse :: wordsAux rest []
      else wordsAux rest (c :: cur)

/-- The non-empty words of a string under the `[\s\-_\.]` separators. -/
def wordsOf (l : StrL) : List StrL := wordsAux l []

/-- Python `str.capitalize` on an ASCII word: first character upcased,
the rest downcased. -/
def capitalizeWord (w : StrL) : StrL :=
  match w with
  | [] => []
  | c :: cs => asciiUpperChar c :: cs.map asciiLowerChar

/-- Embedding of `_to_pascal_case` (src/tagger.py:55-65): strip, return the
empty string unchanged, return strings already matching
`^[A-Z][a-zA-Z0-9]*$` unchanged, else split on separators and join the
capitalized non-empty words. -/
def toPascalCase (t : StrL) : StrL :=
  let s := pyStrip t
  if s = [] then s
  else if pascalRegexB s then s
  else ((wordsOf s).map capitalizeWord).flatten

/-- The case-insensitive vocabulary lookup of `_normalize_tags`
(src/tagger.py:113): Python builds `{t.lower(): t for t in available}`,
where a later entry overwrites an earlier one with the same lowercase
form, so lookup returns the last entry whose lowercase form is the key. -/
def lookupLower (avail : List StrL) (key : StrL) : Option StrL :=
  avail.reverse.find? (fun v => pyLower v = key)

/-- Loop of `BaseTagger._normalize_tags` (src/tagger.py:110-126): for each
raw tag, PascalCase it, replace it by the stored vocabulary spelling when
its lowercase form is registered, and keep only the first occurrence of
each lowercase form (`seen`). -/
def normLoop (avail : List StrL) : List StrL → List StrL → List StrL
  | [], _ => []
  | tag :: rest, seen =>
      let pascal := toPascalCase tag
      let lowerKey := pyLower pascal
      let pascal1 :=
        match lookupLower avail lowerKey with
        | some v => v
        | none => pascal
      if lowerKey ∈ seen then normLoop avail rest seen
      else pascal1 :: normLoop avail rest (lowerKey :: seen)

/-- Embedding of `BaseTagger._normalize_tags` (src/tagger.py:110-126). -/
def normalizeTags (tags avail : List StrL) : List StrL :=
  normLoop avail tags []

/-- Per-tag canonicalization step of `_normalize_tags`: PascalCase, then
prefer the registered vocabulary spelling. -/
def resolveTag (avail : List StrL) (t : StrL) : StrL :=
  match lookupLower avail (pyLower (toPascalCase t)) with
  | some v => v
  | none => toPascalCase t

/-- The deduplication key of `_normalize_tags`: lowercase of the
PascalCase form. -/
def keyOf (t : StrL) : StrL := pyLower (toPascalCase t)

/-- Generic first-occurrence filter: keep an element only when its key has
not been seen yet. -/
def keepFirstAux (key : StrL → StrL) (seen : List StrL) : List StrL → List StrL
  | [] => []
  | t :: rest =>
      if key t ∈ seen then keepFirstAux key seen rest
      else t :: keepFirstAux key (key t :: seen) rest

/-- Raw tags whose PascalCase conversion is guaranteed to land in
`^[A-Z][A-Za-z0-9]*$`: every character is an ASCII alphanumeric or a
separator, and the first word starts with an ASCII letter. -/
def goodRawTag (t : StrL) : Bool :=
  (pyStrip t).all (fun c => isAlnumB c || isSepChar c) &&
    match wordsOf (pyStrip t) with
    | [] => false
    | w :: _ => match w with
      | [] => false
      | c :: _ => isAlphaB c

/-- Test whether `sep` is an initial run of `l`. -/
def leadsWith : StrL → StrL → Bool
  | [], _ => true
  | _ :: _, [] => false
  | s :: ss, c :: cs => s = c && leadsWith ss cs

/-- Split at the first occurrence of `sep`: Python
`text.split(sep)[0]` and the remainder after that first occurrence.
`none` when `sep` does not occur. -/
def splitFirst (sep : StrL) : StrL → Option (StrL × StrL)
  | [] => none
  | c :: rest =>
      if leadsWith sep (c :: rest) then some ([], (c :: rest).drop sep.length)
      else
        match splitFirst sep rest with
        | some pq => some (c :: pq.1, pq.2)
        | none => none

/-- Index of the first occurrence of `sep` in `l`. -/
def firstIdx (sep : StrL) : StrL → Option Nat
  | [] => none
  | c :: rest =>
      if leadsWith sep (c :: rest) then some 0
      else (firstIdx sep rest).map (· + 1)

/-- The json-tagged fence marker of `_extract_json`. -/
def fenceJson : StrL := strL "```json"

/-- The plain fence marker of `_extract_json`. -/
def fence : StrL := strL "```"

/-- Embedding of the fence handling of `BaseTagger._extract_json`
(src/tagger.py:132-139): `text.split("```json")[1].split("```")[0]` when a
json fence occurs, else `text.split("```")[1].split("```")[0]` when any
fence occurs, else the text verbatim.  Python `split(sep)[1]` is the text
after the first occurrence of `sep` up to the next occurrence of the same
`sep` (the marker cannot overlap itself, so left-to-right scanning is
iterated `splitFirst`).  In the json branch the chunk is therefore cut at
the next `"```json"` first and only then at the first plain fence inside
it; in the plain branch the chunk between the first pair of fences
contains no further fence, so the second `split` is the identity on it. -/
def extractSpan (text : StrL) : StrL :=
  match splitFirst fenceJson text with
  | some pq =>
      (match splitFirst fenceJson pq.2 with
       | some qr =>
           (match splitFirst fence qr.1 with
            | some rr => rr.1
            | none => qr.1)
       | none =>
           (match splitFirst fence pq.2 with
            | some rr => rr.1
            | none => pq.2))
  | none =>
      match splitFirst fence text with
      | some pq =>
          (match splitFirst fence pq.2 with
           | some qr => qr.1
           | none => pq.2)
      | none => text

/-- Modelled from the spec: "if the text contains a fence tagged `json`,
take the content between that fence and the next fence; else if it
contains any fence, take the content between the first pair of fences;
else use the text verbatim", phrased with first-occurrence indices.  Used
only to be compared against `extractSpan`, the embedding of the code. -/
def extractSpanSpec (text : StrL) : StrL :=
  match firstIdx fenceJson text with
  | some i =>
      let after := text.drop (i + fenceJson.length)
      (match firstIdx fence after with
       | some j => after.take j
       | none => after)
  | none =>
      match firstIdx fence text with
      | some i =>
          let after := text.drop (i + fence.length)
          (match firstIdx fence after with
           | some j => after.take j
           | none => after)
      | none => text

/-- Model of a parsed JSON value as far as the pipeline consumes it: the
`tags` member is read as an array of strings (the only shape
`infer_tags` can process without raising); any other value is opaque. -/
inductive JVal where
  | arrStr (xs : List StrL)
  | other
deriving DecidableEq

/-- Model of a parsed JSON document: a top-level object with its member
list, or some non-object value (on which Python `.get` raises). -/
inductive JsonDoc where
  | obj (fields : List (StrL × JVal))
  | nonObj
deriving DecidableEq

/-- The member name `"tags"` looked up by `infer_tags`. -/
def tagsKeyL : StrL := strL "tags"

/-- Embedding of `BaseTagger._extract_json` (src/tagger.py:132-139):
select the fenced span, strip it, and hand it to the JSON parser.  The
parser (`json.loads`) is a library call and is passed as a function;
`none` models a raised `JSONDecodeError`. -/
def extract_json (parse : StrL → Option JsonDoc) (text : StrL) : Option JsonDoc :=
  parse (pyStrip (extractSpan text))

/-- Embedding of `GeminiTagger.infer_tags` (src/tagger.py:152-157) from
the raw LLM text onward (`ClaudeTagger.infer_tags` is the same code):
`result = self._extract_json(response.text); tags = result.get("tags", []);
return self._normalize_tags(tags)`.  `none` models a raised exception:
JSON that does not parse, a non-object document (`.get` raises), or a
`tags` member that is not iterable as a list of strings. -/
def infer_tags (parse : StrL → Option JsonDoc) (avail : List StrL)
    (text : StrL) : Option (List StrL) :=
  match extract_json parse text with
  | none => none
  | some .nonObj => none
  | some (.obj fields) =>
      match List.lookup tagsKeyL fields with
      | none => some (normalizeTags [] avail)
      | some (.arrStr xs) => some (normalizeTags xs avail)
      | some .other => none

/-- The block kinds of `_RICH_TEXT_BLOCK_TYPES` (src/utils.py:4-15). -/
def richTextBlockTypes : List StrL :=
  [strL "paragraph", strL "heading_1", strL "heading_2", strL "heading_3",
   strL "bulleted_list_item", strL "numbered_list_item", strL "quote",
   strL "callout", strL "toggle", strL "to_do"]

/-- Model of a Notion block as `extract_block_text` reads it: its `type`
string, the `plain_text` runs of the `rich_text` array stored under the
type key, and the `language` field (read only for code blocks). -/
structure Block where
  type : StrL
  rich_text : List StrL
  language : StrL

/-- Embedding of `extract_block_text` (src/utils.py:18-41): join the
plain-text runs for the supported rich-text kinds, format code blocks as
`[<language>] <text>` when a language is set, and return the empty string
for unsupported kinds. -/
def extract_block_text (b : Block) : StrL :=
  if b.type ∈ richTextBlockTypes then b.rich_text.flatten
  else if b.type = strL "code" then
    if b.language ≠ [] then
      ('[' :: b.language) ++ (']' :: ' ' :: b.rich_text.flatten)
    else b.rich_text.flatten
  else []

/-- The accumulation loop of `extract_body_content` (src/utils.py:44-62):
skip empty texts; once appending a text would exceed `max_chars`, append
its truncation to the remaining budget (when positive) and stop;
otherwise append it and count its length plus one for the joining
newline. -/
def bodyLoop : List Block → Nat → Nat → List StrL
  | [], _, _ => []
  | b :: rest, total, maxc =>
      let text := extract_block_text b
      if text = [] then bodyLoop rest total maxc
      else if total + text.length > maxc then
        let remaining := maxc - total
        if remaining > 0 then [text.take remaining] else []
      else text :: bodyLoop rest (total + text.length + 1) maxc

/-- Python `"\n".join(lines)`. -/
def joinNl : List StrL → StrL
  | [] => []
  | [t] => t
  | t :: ts => t ++ '\n' :: joinNl ts

/-- Embedding of `extract_body_content` (src/utils.py:44-62). -/
def extract_body_content (blocks : List Block) (max_chars : Nat) : StrL :=
  joinNl (bodyLoop blocks 0 max_chars)

/-- The non-empty block texts, in order: what `extract_body_content`
joins when nothing is truncated. -/
def nonEmptyTexts (blocks : List Block) : List StrL :=
  (blocks.map extract_block_text).filter (fun t => !t.isEmpty)

/-- Model of a record (a Notion page) as the driver reads it: for each
property name, the value of its `date` field (`none` when the property is
absent or its date is null), each date value carrying an optional `start`
string; plus the page's `last_edited_time` stamp, which `_should_skip`
never reads. -/
structure Page where
  props : List (StrL × Option (Option StrL))
  last_edited_time : StrL

/-- Embedding of `_should_skip` (src/main.py:43-57).  `parse` stands for
`datetime.fromisoformat` composed with the UTC-epoch conversion (naive
stamps assumed UTC), returning `none` when parsing raises; `now` is
`datetime.now(timezone.utc)` in epoch seconds.  The float comparison
`diff_seconds / 3600 < hours` is the exact integer comparison
`now - t < hours * 3600`. -/
def shouldSkip (parse : StrL → Option Int) (now : Int) (page : Page)
    (taggedAtProp : StrL) (hours : Int) : Bool :=
  match List.lookup taggedAtProp page.props with
  | none => false
  | some none => false
  | some (some dstart) =>
      match dstart with
      | none => false
      | some s =>
          if s = [] then false
          else
            match parse s with
            | none => false
            | some t => decide (now - t < hours * 3600)

/-- Model of a Notion partial-update property payload. -/
inductive PropPayload where
  | multiSelect (names : List StrL)
deriving DecidableEq

/-- Embedding of `NotionDB.update_tags` (src/notion_service.py:98-107):
the `properties` payload of the `pages.update` call.  The method's
parameters are exactly `(page_id, tag_property, tags)` — it accepts no
tagged-at property — and the payload sets the single multi-select
property below. -/
def update_tags_props (tag_property : StrL) (tags : List StrL) :
    List (StrL × PropPayload) :=
  [(tag_property, .multiSelect tags)]

/-- Outcome of one `tagger.infer_tags` attempt, as the exception flow of
`_infer_with_retry` distinguishes them.  `rateLimit` is the
`RateLimitError` that `src/main.py` imports from `tagger` (the class
itself is declared nowhere under src; modelled from the spec as the
distinguished provider-throttling error); `otherErr` is any other
exception. -/
inductive AttemptResult where
  | ok (tags : List StrL)
  | rateLimit
  | otherErr
deriving DecidableEq

/-- Result of `_infer_with_retry` as seen by `process_records`. -/
inductive InferResult where
  | tags (ts : List StrL)
  | rateLimited
  | failed
deriving DecidableEq

/-- Embedding of `_infer_with_retry` (src/main.py:27-40) over the
outcomes of the two possible attempts; the second component counts the
attempts actually made.  A first success returns; a `RateLimitError` is
re-raised immediately on either attempt; any other first failure is
retried exactly once, and a second generic failure is re-raised. -/
def inferWithRetry (first second : AttemptResult) : InferResult × Nat :=
  match first with
  | .ok ts => (.tags ts, 1)
  | .rateLimit => (.rateLimited, 1)
  | .otherErr =>
      match second with
      | .ok ts => (.tags ts, 2)
      | .rateLimit => (.rateLimited, 2)
      | .otherErr => (.failed, 2)

/-- Environment of one `process_records` run: the timestamp parser, the
current time, the tagged-at property name (`config.tagged_at_property_name`
as `src/main.py` reads it) and the `hours` window argument. -/
structure Env where
  parse : StrL → Option Int
  now : Int
  taggedAtProp : StrL
  hours : Int

/-- One record of a run together with the behaviour of the external calls
made for it: its page, whether the extracted content (after the optional
body merge) was entirely empty, the outcomes of the first and second
inference attempts, and whether the write-back call returned without
raising. -/
structure RecordSpec where
  page : Page
  contentEmpty : Bool
  attempt1 : AttemptResult
  attempt2 : AttemptResult
  updateOk : Bool

/-- Loop of `process_records` (src/main.py:60-117), carrying
`total = len(records)`, the running index `i`, and the three counters:
skip when `_should_skip` fires or the content is empty; otherwise infer
with one retry and write back; a propagated `RateLimitError` adds
`len(records) - i` to `failed` and stops; any other failure (second
inference failure or write-back failure) counts this record failed and
continues. -/
def processLoop (env : Env) : List RecordSpec → Nat → Nat → Nat → Nat → Nat →
    Nat × Nat × Nat
  | [], _, _, s, f, k => (s, f, k)
  | r :: rest, total, idx, s, f, k =>
      if shouldSkip env.parse env.now r.page env.taggedAtProp env.hours then
        processLoop env rest total (idx + 1) s f (k + 1)
      else if r.contentEmpty then
        processLoop env rest total (idx + 1) s f (k + 1)
      else
        match inferWithRetry r.attempt1 r.attempt2 with
        | (.rateLimited, _) => (s, f + (total - idx), k)
        | (.failed, _) => processLoop env rest total (idx + 1) s (f + 1) k
        | (.tags _, _) =>
            if r.updateOk then processLoop env rest total (idx + 1) (s + 1) f k
            else processLoop env rest total (idx + 1) s (f + 1) k

/-- Embedding of `process_records` (src/main.py:60-117): run the loop
from the start with zeroed counters; returns
`(success, failed, skipped)`. -/
def processRecords (env : Env) (recs : List RecordSpec) : Nat × Nat × Nat :=
  processLoop env recs recs.length 0 0 0 0

/-- A tagged-at property name for concrete runs. -/
def taggedAtName : StrL := strL "TaggedAt"

/-- Concrete tagged-at stamp (epoch second 0 under `parseC1`). -/
def ts0 : StrL := strL "2026-01-31T09:00:00+00:00"

/-- A last-edited stamp six hours after `ts0`. -/
def leSixHours : StrL := strL "2026-01-31T15:00:00.000Z"

/-- A last-edited stamp five seconds after `ts0`. -/
def leFiveSecs : StrL := strL "2026-01-31T09:00:05.000Z"

/-- Concrete instantiation of the timestamp parser agreeing with
`datetime.fromisoformat` (as UTC epoch seconds from `ts0`) on the three
stamps used in the `_should_skip` scenarios. -/
def parseC1 (s : StrL) : Option Int :=
  if s = ts0 then some 0
  else if s = leSixHours then some 21600
  else if s = leFiveSecs then some 5
  else none

/-- A record tagged at `ts0` and last edited six hours later — the
scenario of `test_no_skip_when_user_edited` in tests/test_tagger.py. -/
def pageEditedSixHoursAfter : Page :=
  ⟨[(taggedAtName, some (some ts0))], leSixHours⟩

/-- A record tagged at `ts0` and last edited five seconds later — the
scenario of `test_skip_when_tagged_recently` in tests/test_tagger.py. -/
def pageEditedFiveSecsAfter : Page :=
  ⟨[(taggedAtName, some (some ts0))], leFiveSecs⟩

/-- The raw LLM text `{"tags": []}` (a valid JSON object with an empty
tags array). -/
def rawEmptyTags : StrL := strL "\x7b\"tags\": []\x7d"

/-- Concrete JSON parser agreeing with `json.loads` on `rawEmptyTags`. -/
def parseEmptyTags (s : StrL) : Option JsonDoc :=
  if s = rawEmptyTags then some (.obj [(tagsKeyL, .arrStr [])]) else none

/-- The raw LLM text `{"tags": ["python"]}`. -/
def rawOneTag : StrL := strL "\x7b\"tags\": [\"python\"]\x7d"

/-- Concrete JSON parser agreeing with `json.loads` on `rawOneTag`. -/
def parseOneTag (s : StrL) : Option JsonDoc :=
  if s = rawOneTag then some (.obj [(tagsKeyL, .arrStr [strL "python"])])
  else none

/-- A json-fenced raw LLM text whose body is the empty object. -/
def rawFenced : StrL := strL "```json\n\x7b\x7d\n```"

/-- Concrete JSON parser agreeing with `json.loads` on the stripped
span `{}` of `rawFenced`. -/
def parseEmptyObj (s : StrL) : Option JsonDoc :=
  if s = strL "\x7b\x7d" then some (.obj []) else none

/-- A raw LLM text with a second json-tagged fence beginning inside the
closing backtick run: `"```json{}`````json"`. -/
def rawTricky : StrL := strL "```json\x7b\x7d`````json"

/-- The two-block example of the spec: `["A"*50, "B"*50]`. -/
def exampleBlocks : List Block :=
  [⟨strL "paragraph", [List.replicate 50 'A'], []⟩,
   ⟨strL "paragraph", [List.replicate 50 'B'], []⟩]

/-- Two short blocks that fit any generous budget. -/
def fitBlocks : List Block :=
  [⟨strL "heading_1", [strL "Title"], []⟩,
   ⟨strL "paragraph", [strL "Body text"], []⟩]

/-- A page with no properties at all (never skipped by the guard). -/
def pageEmpty : Page := ⟨[], []⟩

/-- A plain run environment: no stamp ever parses, window of 24 hours. -/
def envPlain : Env := ⟨fun _ => none, 0, taggedAtName, 24⟩

/-- A record whose first inference attempt succeeds and whose write-back
succeeds. -/
def recOk : RecordSpec := ⟨pageEmpty, false, .ok [strL "Python"], .ok [], true⟩

/-- A record whose inference attempt raises `RateLimitError`. -/
def recRate : RecordSpec := ⟨pageEmpty, false, .rateLimit, .rateLimit, true⟩

/-- A record whose two inference attempts both fail generically. -/
def recFail : RecordSpec := ⟨pageEmpty, false, .otherErr, .otherErr, true⟩

/-- Five records of which the third hits the provider rate limit. -/
def recsFive : List RecordSpec := [recOk, recOk, recRate, recOk, recOk]

theorem toNat_asciiUpperChar (c : Char) :
    (asciiUpperChar c).toNat =
      if 97 ≤ c.toNat ∧ c.toNat ≤ 122 then c.toNat - 32 else c.toNat := by
  unfold asciiUpperChar
  split <;> rfl

theorem toNat_asciiLowerChar (c : Char) :
    (asciiLowerChar c).toNat =
      if 65 ≤ c.toNat ∧ c.toNat ≤ 90 then c.toNat + 32 else c.toNat := by
  unfold asciiLowerChar
  split <;> rfl

theorem isAlnumB_asciiUpperChar (c : Char) (h : isAlnumB c = true) :
    isAlnumB (asciiUpperChar c) = true := by
  simp only [isAlnumB, isUpperB, isLowerB, isDigitB, Bool.or_eq_true,
    Bool.and_eq_true, decide_eq_true_eq] at h ⊢
  rw [toNat_asciiUpperChar]
  split <;> omega

theorem isAlnumB_asciiLowerChar (c : Char) (h : isAlnumB c = true) :
    isAlnumB (asciiLowerChar c) = true := by
  simp only [isAlnumB, isUpperB, isLowerB, isDigitB, Bool.or_eq_true,
    Bool.and_eq_true, decide_eq_true_eq] at h ⊢
  rw [toNat_asciiLowerChar]
  split <;> omega

theorem isUpperB_asciiUpperChar (c : Char) (h : isAlphaB c = true) :
    isUpperB (asciiUpperChar c) = true := by
  simp only [isAlphaB, isUpperB, isLowerB, Bool.or_eq_true,
    Bool.and_eq_true, decide_eq_true_eq] at h ⊢
  rw [toNat_asciiUpperChar]
  split <;> omega

theorem lookupLower_spelling (avail : List StrL) (key v : StrL)
    (h : lookupLower avail key = some v) : pyLower v = key ∧ v ∈ avail := by
  unfold lookupLower at h
  have h1 := List.find?_some h
  have h2 := List.mem_of_find?_eq_some h
  simp only [decide_eq_true_eq] at h1
  exact ⟨h1, List.mem_reverse.mp h2⟩

theorem pyLower_resolveTag (avail : List StrL) (t : StrL) :
    pyLower (resolveTag avail t) = keyOf t := by
  unfold resolveTag keyOf
  cases h : lookupLower avail (pyLower (toPascalCase t)) with
  | none => rfl
  | some v => exact (lookupLower_spelling avail _ v h).1

theorem normLoop_eq_keepFirst (avail : List StrL) (tags : List StrL) :
    ∀ seen, normLoop avail tags seen =
      (keepFirstAux keyOf seen tags).map (resolveTag avail) := by
  induction tags with
  | nil => intro seen; rfl
  | cons tag rest ih =>
      intro seen
      simp only [normLoop, keepFirstAux, keyOf, resolveTag]
      by_cases h : pyLower (toPascalCase tag) ∈ seen
      · rw [if_pos h, if_pos h, ih]
      · rw [if_neg h, if_neg h, List.map_cons, ih]
        rfl

theorem normalizeTags_eq_keepFirst (tags avail : List StrL) :
    normalizeTags tags avail =
      (keepFirstAux keyOf [] tags).map (resolveTag avail) :=
  normLoop_eq_keepFirst avail tags []

theorem keepFirstAux_subset (key : StrL → StrL) (l : List StrL) :
    ∀ seen t, t ∈ keepFirstAux key seen l → t ∈ l := by
  induction l with
  | nil => intro seen t h; simp [keepFirstAux] at h
  | cons hd rest ih =>
      intro seen t h
      simp only [keepFirstAux] at h
      by_cases hm : key hd ∈ seen
      · rw [if_pos hm] at h
        exact List.mem_cons_of_mem hd (ih seen t h)
      · rw [if_neg hm] at h
        rcases List.mem_cons.mp h with h1 | h1
        · exact h1 ▸ List.mem_cons_self hd rest
        · exact List.mem_cons_of_mem hd (ih _ t h1)

theorem keepFirstAux_key_not_seen (key : StrL → StrL) (l : List StrL) :
    ∀ seen t, t ∈ keepFirstAux key seen l → key t ∉ seen := by
  induction l with
  | nil => intro seen t h; simp [keepFirstAux] at h
  | cons hd rest ih =>
      intro seen t h
      simp only [keepFirstAux] at h
      by_cases hm : key hd ∈ seen
      · rw [if_pos hm] at h
        exact ih seen t h
      · rw [if_neg hm] at h
        rcases List.mem_cons.mp h with h1 | h1
        · exact h1 ▸ hm
        · intro hs
          exact ih _ t h1 (List.mem_cons_of_mem _ hs)

theorem keepFirstAux_pairwise (key : StrL → StrL) (l : List StrL) :
    ∀ seen, List.Pairwise (fun a b => key a ≠ key b) (keepFirstAux key seen l) := by
  induction l with
  | nil => intro seen; simp [keepFirstAux]
  | cons hd rest ih =>
      intro seen
      simp only [keepFirstAux]
      by_cases hm : key hd ∈ seen
      · rw [if_pos hm]; exact ih seen
      · rw [if_neg hm]
        refine List.Pairwise.cons ?_ (ih _)
        intro b hb heq
        exact keepFirstAux_key_not_seen key rest _ b hb
          (heq ▸ List.mem_cons_self (key hd) seen)

theorem keepFirstAux_exists_key (key : StrL → StrL) (l : List StrL) :
    ∀ seen t, t ∈ l → key t ∉ seen →
      ∃ t0, t0 ∈ keepFirstAux key seen l ∧ key t0 = key t := by
  induction l with
  | nil => intro seen t h; exact absurd h (List.not_mem_nil t)
  | cons hd rest ih =>
      intro seen t ht hk
      simp only [keepFirstAux]
      by_cases hm : key hd ∈ seen
      · rw [if_pos hm]
        rcases List.mem_cons.mp ht with h1 | h1
        · exact absurd (h1 ▸ hm) hk
        · exact ih seen t h1 hk
      · rw [if_neg hm]
        by_cases he : key t = key hd
        · exact ⟨hd, List.mem_cons_self hd _, he.symm⟩
        · rcases List.mem_cons.mp ht with h1 | h1
          · exact absurd (congrArg key h1) he
          · have hk2 : key t ∉ key hd :: seen := by
              intro hs
              rcases List.mem_cons.mp hs with h2 | h2
              · exact he h2
              · exact hk h2
            rcases ih (key hd :: seen) t h1 hk2 with ⟨t0, ht0, hkey⟩
            exact ⟨t0, List.mem_cons_of_mem hd ht0, hkey⟩

theorem normalizeTags_pairwise (tags avail : List StrL) :
    List.Pairwise (fun a b => pyLower a ≠ pyLower b) (normalizeTags tags avail) := by
  rw [normalizeTags_eq_keepFirst]
  rw [List.pairwise_map]
  refine (keepFirstAux_pairwise keyOf tags []).imp ?_
  intro a b h
  rw [pyLower_resolveTag, pyLower_resolveTag]
  exact h

theorem normalizeTags_canonical (tags avail : List StrL) (u : StrL)
    (h : u ∈ normalizeTags tags avail) :
    (∃ raw, raw ∈ tags ∧ u = toPascalCase raw) ∨ u ∈ avail := by
  rw [normalizeTags_eq_keepFirst] at h
  rcases List.mem_map.mp h with ⟨t0, ht0, hu⟩
  have htags : t0 ∈ tags := keepFirstAux_subset keyOf tags [] t0 ht0
  unfold resolveTag at hu
  cases hl : lookupLower avail (pyLower (toPascalCase t0)) with
  | none => rw [hl] at hu; exact Or.inl ⟨t0, htags, hu.symm⟩
  | some v =>
      rw [hl] at hu
      exact Or.inr (hu ▸ (lookupLower_spelling avail _ v hl).2)

theorem normalizeTags_vocab_mem (tags avail : List StrL) (t v : StrL)
    (ht : t ∈ tags) (hl : lookupLower avail (keyOf t) = some v) :
    v ∈ normalizeTags tags avail := by
  rw [normalizeTags_eq_keepFirst]
  rcases keepFirstAux_exists_key keyOf tags [] t ht (List.not_mem_nil _) with
    ⟨t0, ht0, hkey⟩
  have : resolveTag avail t0 = v := by
    unfold resolveTag
    unfold keyOf at hkey
    rw [hkey]
    unfold keyOf at hl
    rw [hl]
  exact this ▸ List.mem_map_of_mem (resolveTag avail) ht0

theorem wordsAux_chars (P : Char → Prop) :
    ∀ l cur, (∀ c ∈ cur, P c) → (∀ c ∈ l, isSepChar c = false → P c) →
      ∀ w ∈ wordsAux l cur, ∀ c ∈ w, P c := by
  intro l
  induction l with
  | nil =>
      intro cur hcur _ w hw c hc
      simp only [wordsAux] at hw
      by_cases h : cur = []
      · rw [if_pos h] at hw
        exact absurd hw (List.not_mem_nil w)
      · rw [if_neg h] at hw
        rcases List.mem_singleton.mp hw with rfl
        exact hcur c (List.mem_reverse.mp hc)
  | cons d rest ih =>
      intro cur hcur hl w hw c hc
      simp only [wordsAux] at hw
      by_cases hs : isSepChar d = true
      · rw [if_pos hs] at hw
        by_cases h : cur = []
        · rw [if_pos h] at hw
          refine ih [] (by simp) ?_ w hw c hc
          intro e he hne
          exact hl e (List.mem_cons_of_mem d he) hne
        · rw [if_neg h] at hw
          rcases List.mem_cons.mp hw with rfl | hw1
          · exact hcur c (List.mem_reverse.mp hc)
          · refine ih [] (by simp) ?_ w hw1 c hc
            intro e he hne
            exact hl e (List.mem_cons_of_mem d he) hne
      · rw [if_neg hs] at hw
        refine ih (d :: cur) ?_ ?_ w hw c hc
        · intro e he
          rcases List.mem_cons.mp he with rfl | he1
          · exact hl _ (List.mem_cons_self _ _) (by simpa using hs)
          · exact hcur e he1
        · intro e he hne
          exact hl e (List.mem_cons_of_mem d he) hne

theorem wordsAux_ne_nil :
    ∀ l cur w, w ∈ wordsAux l cur → w ≠ [] := by
  intro l
  induction l with
  | nil =>
      intro cur w hw
      simp only [wordsAux] at hw
      by_cases h : cur = []
      · rw [if_pos h] at hw
        exact absurd hw (List.not_mem_nil w)
      · rw [if_neg h] at hw
        rcases List.mem_singleton.mp hw with rfl
        simp [h]
  | cons d rest ih =>
      intro cur w hw
      simp only [wordsAux] at hw
      by_cases hs : isSepChar d = true
      · rw [if_pos hs] at hw
        by_cases h : cur = []
        · rw [if_pos h] at hw
          exact ih [] w hw
        · rw [if_neg h] at hw
          rcases List.mem_cons.mp hw with rfl | hw1
          · simp [h]
          · exact ih [] w hw1
      · rw [if_neg hs] at hw
        exact ih (d :: cur) w hw

theorem capitalizeWord_all_alnum (w : StrL)
    (h : ∀ c ∈ w, isAlnumB c = true) :
    ∀ c ∈ capitalizeWord w, isAlnumB c = true := by
  cases w with
  | nil => intro c hc; exact absurd hc (List.not_mem_nil c)
  | cons d cs =>
      intro c hc
      simp only [capitalizeWord] at hc
      rcases List.mem_cons.mp hc with rfl | hc1
      · exact isAlnumB_asciiUpperChar d (h d (List.mem_cons_self d cs))
      · rcases List.mem_map.mp hc1 with ⟨e, he, rfl⟩
        exact isAlnumB_asciiLowerChar e (h e (List.mem_cons_of_mem d he))

theorem toPascalCase_good (t : StrL) (h : goodRawTag t = true) :
    pascalRegexB (toPascalCase t) = true := by
  unfold goodRawTag at h
  rw [Bool.and_eq_true] at h
  obtain ⟨hall, hwords⟩ := h
  rw [List.all_eq_true] at hall
  unfold toPascalCase
  by_cases hnil : pyStrip t = []
  · rw [hnil] at hwords
    simp [wordsOf, wordsAux] at hwords
  · rw [if_neg hnil]
    by_cases hre : pascalRegexB (pyStrip t) = true
    · rw [if_pos hre]
      exact hre
    · rw [if_neg hre]
      have halnum : ∀ w ∈ wordsOf (pyStrip t), ∀ c ∈ w, isAlnumB c = true := by
        refine wordsAux_chars (fun c => isAlnumB c = true) (pyStrip t) []
          (by simp) ?_
        intro c hc hns
        have := hall c hc
        rw [Bool.or_eq_true] at this
        rcases this with h1 | h1
        · exact h1
        · exact absurd h1 (by simp [hns])
      cases hw : wordsOf (pyStrip t) with
      | nil => rw [hw] at hwords; exact absurd hwords (by simp)
      | cons w ws =>
          rw [hw] at hwords
          cases w with
          | nil => exact absurd hwords (by simp)
          | cons c cs =>
              have hca : isAlphaB c = true := hwords
              simp only [List.map_cons, capitalizeWord, List.flatten_cons,
                List.cons_append]
              unfold pascalRegexB
              rw [Bool.and_eq_true]
              constructor
              · exact isUpperB_asciiUpperChar c hca
              · rw [List.all_eq_true]
                intro e he
                rcases List.mem_append.mp he with h1 | h1
                · rcases List.mem_map.mp h1 with ⟨d, hd, rfl⟩
                  refine isAlnumB_asciiLowerChar d ?_
                  exact halnum (c :: cs) (hw ▸ List.mem_cons_self _ _) d
                    (List.mem_cons_of_mem c hd)
                · rcases List.mem_flatten.mp h1 with ⟨cw, hcw, hecw⟩
                  rcases List.mem_map.mp hcw with ⟨w1, hw1, rfl⟩
                  refine capitalizeWord_all_alnum w1 ?_ e hecw
                  intro d hd
                  exact halnum w1 (hw ▸ List.mem_cons_of_mem _ hw1) d hd

theorem splitFirst_eq_firstIdx (sep : StrL) :
    ∀ l, splitFirst sep l =
      (firstIdx sep l).map (fun i => (l.take i, l.drop (i + sep.length))) := by
  intro l
  induction l with
  | nil => rfl
  | cons c rest ih =>
      simp only [splitFirst, firstIdx]
      by_cases h : leadsWith sep (c :: rest) = true
      · rw [if_pos h, if_pos h]
        simp
      · rw [if_neg h, if_neg h, ih]
        cases hfi : firstIdx sep rest with
        | none => rfl
        | some i =>
            simp only [Option.map_some', Option.map_map]
            have h1 : (c :: rest).take (i + 1) = c :: rest.take i :=
              List.take_succ_cons
            have h2 : (c :: rest).drop (i + 1 + sep.length) =
                rest.drop (i + sep.length) := by
              have h3 : i + 1 + sep.length = (i + sep.length) + 1 := by omega
              rw [h3, List.drop_succ_cons]
            simp only [Function.comp, h1, h2]

theorem extractSpan_eq_spec_of_no_json (text : StrL)
    (hj : firstIdx fenceJson text = none) :
    extractSpan text = extractSpanSpec text := by
  unfold extractSpan extractSpanSpec
  simp only [splitFirst_eq_firstIdx, hj, Option.map_none']
  cases hf : firstIdx fence text with
  | none => rfl
  | some i =>
      simp only [Option.map_some']
      cases hf2 : firstIdx fence (text.drop (i + fence.length)) with
      | none => simp [hf2]
      | some j => simp [hf2]

theorem extractSpan_eq_spec_of_single_json (text : StrL) (i : Nat)
    (hj : firstIdx fenceJson text = some i)
    (hnone : firstIdx fenceJson (text.drop (i + fenceJson.length)) = none) :
    extractSpan text = extractSpanSpec text := by
  unfold extractSpan extractSpanSpec
  simp only [splitFirst_eq_firstIdx, hj, Option.map_some']
  cases hf : firstIdx fence (text.drop (i + fenceJson.length)) with
  | none => simp [hnone, hf]
  | some j => simp [hnone, hf]

theorem bodyLoop_of_total_gt (maxc : Nat) :
    ∀ blocks total, maxc < total → bodyLoop blocks total maxc = [] := by
  intro blocks
  induction blocks with
  | nil => intro total _; rfl
  | cons b rest ih =>
      intro total h
      simp only [bodyLoop]
      by_cases he : extract_block_text b = []
      · rw [if_pos he]
        exact ih total h
      · rw [if_neg he]
        have hgt : total + (extract_block_text b).length > maxc := by omega
        rw [if_pos hgt]
        have : ¬ maxc - total > 0 := by omega
        rw [if_neg this]

theorem joinNl_length_cons (t : StrL) (ts : List StrL) (h : ts ≠ []) :
    (joinNl (t :: ts)).length = t.length + 1 + (joinNl ts).length := by
  cases ts with
  | nil => exact absurd rfl h
  | cons u us => simp [joinNl, List.length_append]; omega

theorem bodyLoop_length (maxc : Nat) :
    ∀ blocks total, (joinNl (bodyLoop blocks total maxc)).length ≤ maxc - total := by
  intro blocks
  induction blocks with
  | nil => intro total; simp [bodyLoop, joinNl]
  | cons b rest ih =>
      intro total
      simp only [bodyLoop]
      by_cases he : extract_block_text b = []
      · rw [if_pos he]
        exact ih total
      · rw [if_neg he]
        by_cases hgt : total + (extract_block_text b).length > maxc
        · rw [if_pos hgt]
          by_cases hr : maxc - total > 0
          · rw [if_pos hr]
            simp only [joinNl, List.length_take]
            omega
          · rw [if_neg hr]
            simp [joinNl]
        · rw [if_neg hgt]
          cases hrest : bodyLoop rest (total + (extract_block_text b).length + 1) maxc with
          | nil =>
              simp only [joinNl]
              omega
          | cons u us =>
              have hne : bodyLoop rest (total + (extract_block_text b).length + 1) maxc ≠ [] := by
                rw [hrest]; exact List.cons_ne_nil u us
              by_cases hcl : total + (extract_block_text b).length + 1 ≤ maxc
              · have := ih (total + (extract_block_text b).length + 1)
                rw [← hrest]
                rw [joinNl_length_cons _ _ hne]
                omega
              · have : maxc < total + (extract_block_text b).length + 1 := by omega
                rw [bodyLoop_of_total_gt maxc rest _ this] at hrest
                exact absurd hrest.symm (List.cons_ne_nil u us)

theorem bodyLoop_of_nonEmptyTexts_nil (maxc : Nat) :
    ∀ blocks total, nonEmptyTexts blocks = [] → bodyLoop blocks total maxc = [] := by
  intro blocks
  induction blocks with
  | nil => intro total _; rfl
  | cons b rest ih =>
      intro total h
      simp only [nonEmptyTexts, List.map_cons, List.filter_cons] at h
      by_cases he : extract_block_text b = []
      · simp only [bodyLoop]
        rw [if_pos he]
        refine ih total ?_
        simp only [he, List.isEmpty_nil, Bool.not_true] at h
        exact h
      · exfalso
        have : (!(extract_block_text b).isEmpty) = true := by
          simp [List.isEmpty_eq_true, he]
        rw [this] at h
        exact List.cons_ne_nil _ _ h

theorem bodyLoop_all_fit (maxc : Nat) :
    ∀ blocks total,
      total + (joinNl (nonEmptyTexts blocks)).length ≤ maxc →
      bodyLoop blocks total maxc = nonEmptyTexts blocks := by
  intro blocks
  induction blocks with
  | nil => intro total _; rfl
  | cons b rest ih =>
      intro total h
      have hunf : nonEmptyTexts (b :: rest) =
          if (extract_block_text b) = [] then nonEmptyTexts rest
          else extract_block_text b :: nonEmptyTexts rest := by
        simp only [nonEmptyTexts, List.map_cons, List.filter_cons]
        by_cases he : extract_block_text b = []
        · simp [he]
        · simp [List.isEmpty_eq_true, he]
      by_cases he : extract_block_text b = []
      · rw [hunf, if_pos he] at h ⊢
        simp only [bodyLoop]
        rw [if_pos he]
        exact ih total h
      · rw [hunf, if_neg he] at h ⊢
        simp only [bodyLoop]
        rw [if_neg he]
        cases hrest : nonEmptyTexts rest with
        | nil =>
            rw [hrest] at h
            simp only [joinNl] at h
            have hle : ¬ total + (extract_block_text b).length > maxc := by omega
            rw [if_neg hle]
            rw [bodyLoop_of_nonEmptyTexts_nil maxc rest _ hrest]
        | cons u us =>
            rw [hrest] at h
            rw [joinNl_length_cons _ _ (List.cons_ne_nil u us)] at h
            have hle : ¬ total + (extract_block_text b).length > maxc := by omega
            rw [if_neg hle]
            rw [ih (total + (extract_block_text b).length + 1)
              (by rw [hrest]; omega), hrest]

theorem processLoop_sum (env : Env) :
    ∀ recs total idx s f k, total = idx + recs.length → s + f + k = idx →
      (processLoop env recs total idx s f k).1 +
        (processLoop env recs total idx s f k).2.1 +
        (processLoop env recs total idx s f k).2.2 = total := by
  intro recs
  induction recs with
  | nil =>
      intro total idx s f k h1 h2
      simp only [processLoop]
      simp only [List.length_nil] at h1
      omega
  | cons r rest ih =>
      intro total idx s f k h1 h2
      rw [List.length_cons] at h1
      simp only [processLoop]
      by_cases hskip :
          shouldSkip env.parse env.now r.page env.taggedAtProp env.hours = true
      · rw [if_pos hskip]
        exact ih total (idx + 1) s f (k + 1) (by omega) (by omega)
      · rw [if_neg hskip]
        by_cases hemp : r.contentEmpty = true
        · rw [if_pos hemp]
          exact ih total (idx + 1) s f (k + 1) (by omega) (by omega)
        · rw [if_neg hemp]
          rcases hr : inferWithRetry r.attempt1 r.attempt2 with ⟨res, n⟩
          cases res with
          | rateLimited =>
              show s + (f + (total - idx)) + k = total
              omega
          | failed =>
              exact ih total (idx + 1) s (f + 1) k (by omega) (by omega)
          | tags ts =>
              show (if r.updateOk = true
                    then processLoop env rest total (idx + 1) (s + 1) f k
                    else processLoop env rest total (idx + 1) s (f + 1) k).1 +
                  (if r.updateOk = true
                    then processLoop env rest total (idx + 1) (s + 1) f k
                    else processLoop env rest total (idx + 1) s (f + 1) k).2.1 +
                  (if r.updateOk = true
                    then processLoop env rest total (idx + 1) (s + 1) f k
                    else processLoop env rest total (idx + 1) s (f + 1) k).2.2 =
                  total
              by_cases hup : r.updateOk = true
              · rw [if_pos hup]
                exact ih total (idx + 1) (s + 1) f k (by omega) (by omega)
              · rw [if_neg hup]
                exact ih total (idx + 1) s (f + 1) k (by omega) (by omega)

theorem normalizeTags_class_covered (tags avail : List StrL) (t : StrL)
    (ht : t ∈ tags) :
    ∃ u ∈ normalizeTags tags avail, pyLower u = keyOf t := by
  rw [normalizeTags_eq_keepFirst]
  rcases keepFirstAux_exists_key keyOf tags [] t ht (List.not_mem_nil _) with
    ⟨t0, ht0, hkey⟩
  refine ⟨resolveTag avail t0, List.mem_map_of_mem (resolveTag avail) ht0, ?_⟩
  rw [pyLower_resolveTag]
  exact hkey

/-- Claim C1 (code bug): the spec and the repository's own tests
(`TestShouldSkip` in tests/test_tagger.py) require the skip decision to
compare the record's last-modified time with its tagged-at time against a
small buffer.  The shipped `_should_skip` instead compares the current
time with tagged-at inside the `hours` window and never reads
`last_edited_time`: a record edited six hours after tagging (stamp
`leSixHours`, epoch 21600) is still skipped when the run happens at epoch
25200 (one hour after the edit), and a record edited five seconds after
tagging is not skipped when the run happens 25 hours later (epoch 90000),
both contradicting the claim. -/
theorem c1_skip_guard_ignores_last_edited :
    parseC1 pageEditedSixHoursAfter.last_edited_time = some 21600 ∧
    parseC1 ts0 = some 0 ∧
    shouldSkip parseC1 25200 pageEditedSixHoursAfter taggedAtName 24 = true ∧
    parseC1 pageEditedFiveSecsAfter.last_edited_time = some 5 ∧
    shouldSkip parseC1 90000 pageEditedFiveSecsAfter taggedAtName 24 = false := by
  refine ⟨rfl, rfl, by decide, rfl, by decide⟩

/-- Claim C2 (code bug): the spec says the write-back sets both the tag
property and the tagged-at property (= now).  `NotionDB.update_tags`
writes a payload containing exactly one property — the multi-select tag
property — and accepts no tagged-at parameter at all, although
`process_records` passes `tagged_at_property=` to it: any property other
than the tag property, in particular the tagged-at property, is absent
from the written payload. -/
theorem c2_update_tags_writes_only_tag_property :
    ∀ tag_property tags taggedAtProp, taggedAtProp ≠ tag_property →
      (update_tags_props tag_property tags).map Prod.fst = [tag_property] ∧
      List.lookup taggedAtProp (update_tags_props tag_property tags) = none := by
  intro tp tags ta h
  refine ⟨rfl, ?_⟩
  have hb : (ta == tp) = false := beq_eq_false_iff_ne.mpr h
  simp [update_tags_props, List.lookup, hb]

/-- Witness for C2 at the configured names. -/
theorem c2_update_tags_writes_only_tag_property_witness :
    (update_tags_props (strL "Label") [strL "Python"]).map Prod.fst =
      [strL "Label"] ∧
    List.lookup taggedAtName (update_tags_props (strL "Label") [strL "Python"]) =
      none :=
  c2_update_tags_writes_only_tag_property (strL "Label") [strL "Python"]
    taggedAtName (by decide)

theorem infer_tags_of_extract_none (parse : StrL → Option JsonDoc)
    (avail : List StrL) (text : StrL) (h : extract_json parse text = none) :
    infer_tags parse avail text = none := by
  unfold infer_tags
  rw [h]

theorem infer_tags_of_nonObj (parse : StrL → Option JsonDoc)
    (avail : List StrL) (text : StrL)
    (h : extract_json parse text = some .nonObj) :
    infer_tags parse avail text = none := by
  unfold infer_tags
  rw [h]

theorem infer_tags_of_obj (parse : StrL → Option JsonDoc) (avail : List StrL)
    (text : StrL) (fields : List (StrL × JVal))
    (h : extract_json parse text = some (.obj fields)) :
    infer_tags parse avail text =
      match List.lookup tagsKeyL fields with
      | none => some (normalizeTags [] avail)
      | some (.arrStr xs) => some (normalizeTags xs avail)
      | some .other => none := by
  unfold infer_tags
  rw [h]

/-- Counterexample for C3: a well-formed LLM response whose `tags` array
is empty makes `infer_tags` return the empty list — the written-back tag
list is not non-empty and its length is not between 1 and the maximum. -/
theorem c3_counterexample_empty_tag_list :
    infer_tags parseEmptyTags [] rawEmptyTags = some [] := by decide

/-- Claim C3 (amended): whenever the parsed LLM response is an object
whose `tags` member is a string array `xs`, the list `infer_tags`
produces — and the driver writes back — is exactly the normalization of
`xs`: it is case-insensitively unique, each of its elements is the
PascalCase form of some response tag of `xs` or an existing-vocabulary
spelling, and every response tag of `xs` is represented in it (its
case-insensitive class appears, so all distinct response tags are kept
with no maximum enforced); a response without a `tags` member yields the
empty list.  Non-emptiness and the 1..max bound are not enforced by the
code. -/
theorem c3_written_tags_unique_canonical :
    (∀ parse avail text fields xs out,
        extract_json parse text = some (.obj fields) →
        List.lookup tagsKeyL fields = some (.arrStr xs) →
        infer_tags parse avail text = some out →
        out = normalizeTags xs avail ∧
        List.Pairwise (fun a b => pyLower a ≠ pyLower b) out ∧
        (∀ u ∈ out, (∃ raw ∈ xs, u = toPascalCase raw) ∨ u ∈ avail) ∧
        (∀ raw ∈ xs, ∃ u ∈ out, pyLower u = keyOf raw)) ∧
    (∀ parse avail text fields out,
        extract_json parse text = some (.obj fields) →
        List.lookup tagsKeyL fields = none →
        infer_tags parse avail text = some out → out = []) := by
  constructor
  · intro parse avail text fields xs out hd hl h
    rw [infer_tags_of_obj parse avail text fields hd, hl] at h
    obtain rfl := Option.some.inj h
    refine ⟨rfl, normalizeTags_pairwise xs avail, ?_, ?_⟩
    · intro u hu
      rcases normalizeTags_canonical xs avail u hu with ⟨raw, hraw, he⟩ | hv
      · exact Or.inl ⟨raw, hraw, he⟩
      · exact Or.inr hv
    · intro raw hraw
      exact normalizeTags_class_covered xs avail raw hraw
  · intro parse avail text fields out hd hl h
    rw [infer_tags_of_obj parse avail text fields hd, hl] at h
    exact (Option.some.inj h).symm

/-- Witness for C3 at the concrete parsed response `{"tags": ["python"]}`. -/
theorem c3_written_tags_unique_canonical_witness :
    List.Pairwise (fun a b => pyLower a ≠ pyLower b) [strL "Python"] :=
  (c3_written_tags_unique_canonical.1 parseOneTag [] rawOneTag
    [(tagsKeyL, JVal.arrStr [strL "python"])] [strL "python"] [strL "Python"]
    (by decide) (by decide) (by decide)).2.1

/-- Counterexample for C4: the raw tag `"c++"` normalizes to `"C++"`,
which does not match `^[A-Z][A-Za-z0-9]*$` — the regex invariant does not
hold for arbitrary raw tags. -/
theorem c4_counterexample_cplusplus :
    normalizeTags [strL "c++"] [] = [strL "C++"] ∧
    pascalRegexB (strL "C++") = false := by decide

/-- Claim C4 (amended): the Normalizer output is case-insensitively
duplicate-free, first occurrence of each case-insensitive form wins and
keeps its relative order (the output is exactly the generic
first-occurrence filter mapped through per-tag canonicalization), and
normalizing ["python", "PYTHON", "Python"] with empty vocabulary yields
["Python"]; the regex invariant `^[A-Z][A-Za-z0-9]*$` holds provided
every raw tag consists of ASCII alphanumerics and separators with its
first word starting with a letter, and every vocabulary entry itself
matches the regex. -/
theorem c4_normalizer_dedup_and_pascal :
    (∀ tags avail,
      ((∀ t ∈ tags, goodRawTag t = true) →
        (∀ v ∈ avail, pascalRegexB v = true) →
        ∀ u ∈ normalizeTags tags avail, pascalRegexB u = true) ∧
      List.Pairwise (fun a b => pyLower a ≠ pyLower b) (normalizeTags tags avail) ∧
      normalizeTags tags avail =
        (keepFirstAux keyOf [] tags).map (resolveTag avail)) ∧
    normalizeTags [strL "python", strL "PYTHON", strL "Python"] [] =
      [strL "Python"] := by
  constructor
  · intro tags avail
    refine ⟨?_, normalizeTags_pairwise tags avail,
      normalizeTags_eq_keepFirst tags avail⟩
    intro hgood hvocab u hu
    rcases normalizeTags_canonical tags avail u hu with ⟨raw, hraw, rfl⟩ | hav
    · exact toPascalCase_good raw (hgood raw hraw)
    · exact hvocab u hav
  · decide

/-- Witness for C4 at the tag "machine-learning" with empty vocabulary. -/
theorem c4_normalizer_dedup_and_pascal_witness :
    pascalRegexB (strL "MachineLearning") = true :=
  ((c4_normalizer_dedup_and_pascal.1 [strL "machine-learning"] []).1
    (by decide) (by decide)) (strL "MachineLearning") (by decide)

/-- Claim C5: a candidate whose lowercase PascalCase form is registered in
the vocabulary is replaced by the stored spelling, which therefore
appears in the output; in particular ["postgresql"] with vocabulary
["PostgreSql"] yields ["PostgreSql"]. -/
theorem c5_vocabulary_reconciliation :
    (∀ tags avail t v, t ∈ tags → lookupLower avail (keyOf t) = some v →
        v ∈ normalizeTags tags avail) ∧
    normalizeTags [strL "postgresql"] [strL "PostgreSql"] =
      [strL "PostgreSql"] := by
  refine ⟨?_, by decide⟩
  intro tags avail t v ht hl
  exact normalizeTags_vocab_mem tags avail t v ht hl

/-- Witness for C5 at the spec's own example. -/
theorem c5_vocabulary_reconciliation_witness :
    strL "PostgreSql" ∈ normalizeTags [strL "postgresql"] [strL "PostgreSql"] :=
  c5_vocabulary_reconciliation.1 [strL "postgresql"] [strL "PostgreSql"]
    (strL "postgresql") (strL "PostgreSql") (by decide) (by decide)

/-- Counterexample for C6: on `"```json{}`````json"` the code's
`text.split("```json")[1]` first cuts at the second json-tagged fence,
leaving the stray backticks of the closing run in the span: the code
selects `"{}``"` (which `json.loads` then rejects), while the claimed
reading — content between the json fence and the next fence — selects
`"{}"`. -/
theorem c6_counterexample_second_json_fence :
    extractSpan rawTricky = strL "\x7b\x7d``" ∧
    extractSpanSpec rawTricky = strL "\x7b\x7d" ∧
    extractSpan rawTricky ≠ extractSpanSpec rawTricky := by
  refine ⟨by decide, by decide, by decide⟩

/-- Claim C6 (amended): when the text contains a json-tagged fence, the
code takes the content after it, cut first at the next json-tagged fence
and then at the first plain fence; this equals the claimed "content
between that fence and the next fence" whenever no second json-tagged
fence occurs in the remainder.  When the text contains no json-tagged
fence, the claimed description holds exactly: the content between the
first pair of fences when any fence occurs, else the text verbatim.  In
all cases the span is stripped and parsed: a span the parser rejects
makes `infer_tags` fail, while a parsed object without a `tags` member
yields the empty tag list rather than an error. -/
theorem c6_response_parsing :
    (∀ text i, firstIdx fenceJson text = some i →
        firstIdx fenceJson (text.drop (i + fenceJson.length)) = none →
        extractSpan text = extractSpanSpec text) ∧
    (∀ text, firstIdx fenceJson text = none →
        extractSpan text = extractSpanSpec text) ∧
    (∀ parse avail text, parse (pyStrip (extractSpan text)) = none →
        infer_tags parse avail text = none) ∧
    (∀ parse avail text fields,
        parse (pyStrip (extractSpan text)) = some (JsonDoc.obj fields) →
        List.lookup tagsKeyL fields = none →
        infer_tags parse avail text = some []) := by
  refine ⟨?_, extractSpan_eq_spec_of_no_json, ?_, ?_⟩
  · intro text i hj hnone
    exact extractSpan_eq_spec_of_single_json text i hj hnone
  · intro parse avail text h
    unfold infer_tags extract_json
    rw [h]
  · intro parse avail text fields h hl
    rw [infer_tags_of_obj parse avail text fields h, hl]
    rfl

/-- Witness for C6: a single json-fenced response matches the spec's span
reading, a fenced empty JSON object parses to the empty tag list, and an
unparseable span fails. -/
theorem c6_response_parsing_witness :
    extractSpan rawFenced = extractSpanSpec rawFenced ∧
    infer_tags (fun _ => none) [] (strL "no fence here") = none ∧
    infer_tags parseEmptyObj [] rawFenced = some [] :=
  ⟨c6_response_parsing.1 rawFenced 0 (by decide) (by decide),
   c6_response_parsing.2.2.1 (fun _ => none) [] (strL "no fence here") rfl,
   c6_response_parsing.2.2.2 parseEmptyObj [] rawFenced [] (by decide)
     (by decide)⟩

/-- Claim C7: `extract_body_content` never returns more than `max_chars`
characters; when nothing overflows the budget it is exactly the non-empty
block texts joined by single newlines; and on the spec's example
(["A"*50, "B"*50], budget 60) it returns "A"*50, a newline, and "B"*9 —
it starts with "A"*50 and has length exactly 60. -/
theorem c7_extract_body_content :
    (∀ blocks maxc, (extract_body_content blocks maxc).length ≤ maxc) ∧
    (∀ blocks maxc, (joinNl (nonEmptyTexts blocks)).length ≤ maxc →
        extract_body_content blocks maxc = joinNl (nonEmptyTexts blocks)) ∧
    extract_body_content exampleBlocks 60 =
      List.replicate 50 'A' ++ '\n' :: List.replicate 9 'B' := by
  refine ⟨?_, ?_, by decide⟩
  · intro blocks maxc
    have h := bodyLoop_length maxc blocks 0
    unfold extract_body_content
    omega
  · intro blocks maxc h
    unfold extract_body_content
    rw [bodyLoop_all_fit maxc blocks 0 (by omega)]

/-- Witness for C7 at two short blocks and the default 4000 budget. -/
theorem c7_extract_body_content_witness :
    extract_body_content fitBlocks 4000 = joinNl (nonEmptyTexts fitBlocks) :=
  c7_extract_body_content.2.1 fitBlocks 4000 (by decide)

/-- Claim C8: a successful first attempt is returned without retry; a
`RateLimitError` on the first attempt propagates immediately after one
attempt; a generic first failure causes exactly one retry (two attempts),
after which a second generic failure propagates while a rate limit on the
retry propagates as a rate limit; and in the driver a record whose two
attempts fail generically is counted as one additional failure with
processing continuing on the remaining records. -/
theorem c8_retry_policy :
    (∀ ts a2, inferWithRetry (.ok ts) a2 = (.tags ts, 1)) ∧
    (∀ a2, inferWithRetry .rateLimit a2 = (.rateLimited, 1)) ∧
    (∀ a2, (inferWithRetry .otherErr a2).2 = 2) ∧
    inferWithRetry .otherErr .otherErr = (.failed, 2) ∧
    inferWithRetry .otherErr .rateLimit = (.rateLimited, 2) ∧
    (∀ env r rest total idx s f k,
        shouldSkip env.parse env.now r.page env.taggedAtProp env.hours = false →
        r.contentEmpty = false →
        (inferWithRetry r.attempt1 r.attempt2).1 = .failed →
        processLoop env (r :: rest) total idx s f k =
          processLoop env rest total (idx + 1) s (f + 1) k) := by
  refine ⟨fun ts a2 => rfl, fun a2 => rfl, ?_, rfl, rfl, ?_⟩
  · intro a2
    cases a2 <;> rfl
  · intro env r rest total idx s f k h1 h2 h3
    have hs1 : ¬ (shouldSkip env.parse env.now r.page env.taggedAtProp
        env.hours = true) := by rw [h1]; exact Bool.false_ne_true
    have he1 : ¬ (r.contentEmpty = true) := by rw [h2]; exact Bool.false_ne_true
    simp only [processLoop]
    rw [if_neg hs1, if_neg he1]
    rcases hr : inferWithRetry r.attempt1 r.attempt2 with ⟨res, n⟩
    rw [hr] at h3
    cases res with
    | failed => rfl
    | rateLimited => exact absurd h3 (by simp)
    | tags ts => exact absurd h3 (by simp)

/-- Witness for C8 in the driver at a record failing both attempts. -/
theorem c8_retry_policy_witness :
    processLoop envPlain [recFail] 1 0 0 0 0 =
      processLoop envPlain [] 1 1 0 1 0 :=
  c8_retry_policy.2.2.2.2.2 envPlain recFail [] 1 0 0 0 0 (by decide) rfl
    (by decide)

/-- Claim C9: when the inference of a record propagates a rate limit, the
loop returns at once, counting that record and every remaining record as
failed (`len(records) - i` more failures) and touching no further record;
on five records with the third rate-limited the final counts are
2 tagged, 3 failed, 0 skipped. -/
theorem c9_rate_limit_abort :
    (∀ env r rest total idx s f k,
        shouldSkip env.parse env.now r.page env.taggedAtProp env.hours = false →
        r.contentEmpty = false →
        (inferWithRetry r.attempt1 r.attempt2).1 = .rateLimited →
        processLoop env (r :: rest) total idx s f k =
          (s, f + (total - idx), k)) ∧
    processRecords envPlain recsFive = (2, 3, 0) := by
  refine ⟨?_, by decide⟩
  intro env r rest total idx s f k h1 h2 h3
  have hs1 : ¬ (shouldSkip env.parse env.now r.page env.taggedAtProp
      env.hours = true) := by rw [h1]; exact Bool.false_ne_true
  have he1 : ¬ (r.contentEmpty = true) := by rw [h2]; exact Bool.false_ne_true
  simp only [processLoop]
  rw [if_neg hs1, if_neg he1]
  rcases hr : inferWithRetry r.attempt1 r.attempt2 with ⟨res, n⟩
  rw [hr] at h3
  cases res with
  | rateLimited => rfl
  | failed => exact absurd h3 (by simp)
  | tags ts => exact absurd h3 (by simp)

/-- Witness for C9: aborting at the third record of five with two already
tagged yields three failures. -/
theorem c9_rate_limit_abort_witness :
    processLoop envPlain [recRate, recOk, recOk] 5 2 2 0 0 =
      (2, 0 + (5 - 2), 0) :=
  c9_rate_limit_abort.1 envPlain recRate [recOk, recOk] 5 2 2 0 0 (by decide)
    rfl (by decide)

/-- Claim C10: on any termination of the `process_records` loop — normal
completion or rate-limit abort — the three counters partition the input:
success + failed + skipped equals the number of records. -/
theorem c10_counter_accounting (env : Env) (recs : List RecordSpec) :
    (processRecords env recs).1 + (processRecords env recs).2.1 +
      (processRecords env recs).2.2 = recs.length := by
  unfold processRecords
  exact processLoop_sum env recs recs.length 0 0 0 0 (by omega) rfl
